import Mathlib

/-!
Sampler, jitter analysis and histogram plot of `ADCTestMain.c`.

A shallow embedding of `Lab 3 - Ryan/ADCTestMain.c`.

Conventions of the embedding.

* C `int` values are mathematical integers (`Int`): the arithmetic of the program is taken
  exactly, signed overflow being undefined in C.
* The build constants `NUM_READINGS` and `ADC_RANGE` are the fields of a `Config`; the
  program's own values are `build`.  Every function takes the configuration, so that the
  program can be evaluated on small buffers too.
* A C array is a map from the index to the word stored at that offset from the array's
  base.  For `times` and `data` the offsets below `NUM_READINGS` are the elements of the
  array and the offset `NUM_READINGS` is the word that follows the array in memory.  For
  `occurances` the offsets in `[0, ADC_RANGE)` are the table; any other offset stands for
  memory outside the array, which a C program must not access.
* A `for` loop is a left fold of its body over the list of the values its counter takes.
* The cursor `currentIndex` is a natural number: it starts at `0` and is only incremented.
* Reads of hardware registers (`TIMER1_TAR_R`, `ADC0_InSeq3()`) are inputs of the handler,
  given as the `int` value that the assignment stores.
-/

namespace ADCTestMain

/-- Build constants of the program (`const int NUM_READINGS`, `const int ADC_RANGE`). -/
structure Config where
  NUM_READINGS : Nat
  ADC_RANGE : Nat
  deriving DecidableEq, Repr

/-- The constants as the source sets them: `NUM_READINGS = 1000`, `ADC_RANGE = 4096`. -/
def build : Config := ⟨1000, 4096⟩

/-- Store `v` at offset `i` of the array `a` (the assignment `a[i] = v`). -/
def store {ι : Type} [DecidableEq ι] (a : ι → Int) (i : ι) (v : Int) : ι → Int :=
  fun j => if j = i then v else a j

/-- Globals written by the interrupt handler: the two sample arrays, the cursor
`currentIndex`, the global `ADCvalue` and the profiling pin `PF2`. -/
structure State where
  times : Nat → Int
  data : Nat → Int
  currentIndex : Nat
  ADCvalue : Int
  PF2 : Nat

/-- One run of `Timer0A_Handler`, the clock register reading `clock` and the converter
reading `adc` being what the hardware returns during this run.  The acknowledge write to
`TIMER0_ICR_R` has no effect on the globals and is left out. -/
def Timer0A_Handler (cfg : Config) (clock adc : Int) (s : State) : State :=
  -- PF2 ^= 0x04; PF2 ^= 0x04; ADCvalue = ADC0_InSeq3();
  let s1 : State := { s with PF2 := (s.PF2 ^^^ 4) ^^^ 4, ADCvalue := adc }
  -- if(currentIndex < NUM_READINGS){ ... }
  let s2 : State :=
    if s1.currentIndex < cfg.NUM_READINGS then
      { s1 with
        times := store s1.times s1.currentIndex clock
        data := store s1.data s1.currentIndex s1.ADCvalue
        currentIndex := s1.currentIndex + 1 }
    else s1
  -- PF2 ^= 0x04;
  { s2 with PF2 := s2.PF2 ^^^ 4 }

/-- A sequence of handler runs; the `j`-th entry of `readings` is the pair (clock reading,
converter reading) seen by the `j`-th run. -/
def triggers (cfg : Config) (readings : List (Int × Int)) (s : State) : State :=
  readings.foldl (fun st r => Timer0A_Handler cfg r.1 r.2 st) s

/-- The globals at reset: static storage is zero and `currentIndex = 0`. -/
def reset : State := ⟨fun _ => 0, fun _ => 0, 0, 0, 0⟩

/-! ## Jitter analysis -/

/-- The function `findJitter`: the spread of the differences of consecutive entries of
`times`.  The loop counter runs over `1, ..., NUM_READINGS - 1`. -/
def findJitter (cfg : Config) (times : Nat → Int) : Int :=
  let smallestTimeDifference := times 1 - times 0
  let largestTimeDifference := times 1 - times 0
  let r := (List.range' 1 (cfg.NUM_READINGS - 1)).foldl
    (fun (acc : Int × Int) i =>
      let difference := times i - times (i - 1)
      let smallest := if difference < acc.1 then difference else acc.1
      let largest := if difference > acc.2 then difference else acc.2
      (smallest, largest))
    (smallestTimeDifference, largestTimeDifference)
  r.2 - r.1

/-! ## Histogram plot -/

/-- Calls into the display driver made by `plot`.  A display log is the list of the calls
made, in their order.  The constructor `ST7735_InitR` is the call
`ST7735_InitR(INITR_REDTAB)`, the only one the program makes. -/
inductive Cmd where
  | ST7735_InitR
  | ST7735_FillScreen (color : Int)
  | ST7735_SetCursor (x y : Int)
  | ST7735_OutString (s : String)
  | ST7735_PlotClear (ymin ymax : Int)
  | ST7735_PlotBar (y : Int)
  | ST7735_PlotNext
  deriving DecidableEq, Repr

/-- Values of the counter of `for(int i = lo; i <= hi; i++)`, in order. -/
def countUp (lo hi : Int) : List Int :=
  (List.range (hi + 1 - lo).toNat).map (fun (k : Nat) => lo + (k : Int))

/-- First pass of `plot`: the pair `(maxValue, minValue)` after the scan of
`data[0 .. NUM_READINGS)`, both started at `data[0]`. -/
def firstPass (cfg : Config) (data : Nat → Int) : Int × Int :=
  (List.range cfg.NUM_READINGS).foldl
    (fun (acc : Int × Int) i =>
      let maxValue := if acc.1 < data i then data i else acc.1
      let minValue := if acc.2 > data i then data i else acc.2
      (maxValue, minValue))
    (data 0, data 0)

/-- Body of the second pass: `occurances[data[i]] += 1`, then `mode` is raised to the new
entry when that is larger. -/
def tallyStep (data : Nat → Int) (acc : (Int → Int) × Int) (i : Nat) : (Int → Int) × Int :=
  let occurances := store acc.1 (data i) (acc.1 (data i) + 1)
  let mode := if occurances (data i) > acc.2 then occurances (data i) else acc.2
  (occurances, mode)

/-- Second pass of `plot`: the table `occurances` and `mode` after the loop
`for(int i=0; i<=NUM_READINGS; i++)`, whose counter takes the values
`0, ..., NUM_READINGS`. -/
def secondPass (cfg : Config) (data : Nat → Int) (occurances : Int → Int) :
    (Int → Int) × Int :=
  (List.range (cfg.NUM_READINGS + 1)).foldl (tallyStep data) (occurances, 0)

/-- Third pass of `plot`: the pair `(minOccurences, maxOccurences)` over the entries
`occurances[minValue .. maxValue]`, both started at `occurances[minValue]`. -/
def thirdPass (occurances : Int → Int) (minValue maxValue : Int) : Int × Int :=
  (countUp minValue maxValue).foldl
    (fun (acc : Int × Int) i =>
      let minOccurences := if occurances i < acc.1 then occurances i else acc.1
      let maxOccurences := if occurances i > acc.2 then occurances i else acc.2
      (minOccurences, maxOccurences))
    (occurances minValue, occurances minValue)

/-- The centring offset: `shiftRight = (127 - plotWidth) / 2`, then set to `0` when
`plotWidth > 127`.  C division truncates towards zero. -/
def shiftRight (plotWidth : Int) : Int :=
  let shift := Int.tdiv (127 - plotWidth) 2
  if plotWidth > 127 then 0 else shift

/-- The loop `for(int i = 0; i < shiftRight; i++) ST7735_PlotNext();` on the display log. -/
def shiftLoop (shift : Int) (display : List Cmd) : List Cmd :=
  (List.range shift.toNat).foldl (fun d _ => d ++ [Cmd.ST7735_PlotNext]) display

/-- The loop `for(int i = minValue; i <= maxValue; i++)` that draws one bar and advances. -/
def barLoop (occurances : Int → Int) (minValue maxValue : Int) (display : List Cmd) :
    List Cmd :=
  (countUp minValue maxValue).foldl
    (fun d i => (d ++ [Cmd.ST7735_PlotBar (occurances i)]) ++ [Cmd.ST7735_PlotNext]) display

/-- Locals of `plot` at its end, the table `occurances` it leaves, and the log of the calls
it made into the display driver. -/
structure PlotResult where
  maxValue : Int
  minValue : Int
  plotWidth : Int
  mode : Int
  minOccurences : Int
  maxOccurences : Int
  shiftRight : Int
  occurances : Int → Int
  display : List Cmd

/-- The function `plot`, run on the sample array `data` and the table `occurances`. -/
def plot (cfg : Config) (data : Nat → Int) (occurances : Int → Int) : PlotResult :=
  let range := firstPass cfg data
  let maxValue := range.1
  let minValue := range.2
  let plotWidth := maxValue - minValue
  let tally := secondPass cfg data occurances
  let occurances := tally.1
  let mode := tally.2
  let yRange := thirdPass occurances minValue maxValue
  let display : List Cmd :=
    [Cmd.ST7735_InitR, Cmd.ST7735_FillScreen 0, Cmd.ST7735_SetCursor 0 0,
      Cmd.ST7735_OutString "Lab 2 - ADC PMF", Cmd.ST7735_PlotClear 0 mode]
  let shift := shiftRight plotWidth
  let display := shiftLoop shift display
  let display := barLoop occurances minValue maxValue display
  ⟨maxValue, minValue, plotWidth, mode, yRange.1, yRange.2, shift, occurances, display⟩

/-- An array holding the entries of `xs` at offsets `0, 1, ...` and `past` beyond them. -/
def ofList (xs : List Int) (past : Int) : Nat → Int := fun i => xs.getD i past

/-- The table `occurances` at reset: static storage is zero. -/
def zeroTable : Int → Int := fun _ => 0

/-! ## Quantities the specification speaks of -/

/-- Number of recorded samples `data[i]`, `i` in `[0, NUM_READINGS)`, that are equal to `v`. -/
def recordedCount (cfg : Config) (data : Nat → Int) (v : Int) : Nat :=
  (List.range cfg.NUM_READINGS).countP (fun i => decide (data i = v))

/-- Sum of the entries `occurances[lo .. hi]`, both ends included. -/
def tableSum (occurances : Int → Int) (lo hi : Int) : Int :=
  ((countUp lo hi).map occurances).sum

/-- Heights of the bars drawn by a display log, in the order of the `ST7735_PlotBar` calls. -/
def barHeights (display : List Cmd) : List Int :=
  display.filterMap (fun c => match c with
    | Cmd.ST7735_PlotBar y => some y
    | _ => none)

/-! ## Accesses made by `plot` -/

/-- Body of the second pass with its accesses recorded: the step is `tallyStep`, and the
log gains the pair of the offset `i` of `data` that the step reads and of the index
`data[i]` of `occurances` that it increments. -/
def tallyStepTraced (data : Nat → Int) (acc : ((Int → Int) × Int) × List (Nat × Int))
    (i : Nat) : ((Int → Int) × Int) × List (Nat × Int) :=
  (tallyStep data acc.1 i, acc.2 ++ [(i, data i)])

/-- Second pass of `plot` with its accesses recorded, one log entry for each run of the
loop body. -/
def secondPassTraced (cfg : Config) (data : Nat → Int) (occurances : Int → Int) :
    ((Int → Int) × Int) × List (Nat × Int) :=
  (List.range (cfg.NUM_READINGS + 1)).foldl (tallyStepTraced data) ((occurances, 0), [])

/-- Indices of `occurances` read by the third pass of `plot`: `minValue` for each of the
two start values, then the loop counter, once for each run of the loop body. -/
def thirdPassIndices (minValue maxValue : Int) : List Int :=
  (countUp minValue maxValue).foldl (fun log i => log ++ [i]) [minValue, minValue]

/-- Indices of `occurances` read by the bar-drawing loop of `plot`, once for each run of
the loop body. -/
def barLoopIndices (minValue maxValue : Int) : List Int :=
  (countUp minValue maxValue).foldl (fun log i => log ++ [i]) []

/-! ## Sampler lemmas -/

theorem handler_index (cfg : Config) (clock adc : Int) (s : State) :
    (Timer0A_Handler cfg clock adc s).currentIndex =
      if s.currentIndex < cfg.NUM_READINGS then s.currentIndex + 1 else s.currentIndex := by
  unfold Timer0A_Handler
  by_cases h : s.currentIndex < cfg.NUM_READINGS <;> simp [h]

theorem handler_times (cfg : Config) (clock adc : Int) (s : State) :
    (Timer0A_Handler cfg clock adc s).times =
      if s.currentIndex < cfg.NUM_READINGS then store s.times s.currentIndex clock
      else s.times := by
  unfold Timer0A_Handler
  by_cases h : s.currentIndex < cfg.NUM_READINGS <;> simp [h]

theorem handler_data (cfg : Config) (clock adc : Int) (s : State) :
    (Timer0A_Handler cfg clock adc s).data =
      if s.currentIndex < cfg.NUM_READINGS then store s.data s.currentIndex adc
      else s.data := by
  unfold Timer0A_Handler
  by_cases h : s.currentIndex < cfg.NUM_READINGS <;> simp [h]

theorem triggers_nil (cfg : Config) (s : State) : triggers cfg [] s = s := rfl

theorem triggers_cons (cfg : Config) (r : Int × Int) (rs : List (Int × Int)) (s : State) :
    triggers cfg (r :: rs) s = triggers cfg rs (Timer0A_Handler cfg r.1 r.2 s) := rfl

theorem triggers_append (cfg : Config) (rs ts : List (Int × Int)) (s : State) :
    triggers cfg (rs ++ ts) s = triggers cfg ts (triggers cfg rs s) := by
  simp [triggers, List.foldl_append]

/-- The cursor after any run of triggers, from any starting cursor. -/
theorem triggers_index (cfg : Config) (rs : List (Int × Int)) (s : State) :
    (triggers cfg rs s).currentIndex =
      if s.currentIndex ≤ cfg.NUM_READINGS
      then min (s.currentIndex + rs.length) cfg.NUM_READINGS
      else s.currentIndex := by
  induction rs generalizing s with
  | nil =>
    simp only [triggers_nil, List.length_nil, Nat.add_zero]
    split <;> omega
  | cons r rs ih =>
    rw [triggers_cons, ih, handler_index]
    simp only [List.length_cons]
    split_ifs <;> omega

/-- Values of the handler's arrays after a run of triggers: the slot at offset `j` holds the
reading of trigger number `j - currentIndex` when that trigger found room, and is untouched
otherwise. -/
theorem triggers_slots (cfg : Config) (rs : List (Int × Int)) (s : State) (j : Nat) :
    ((triggers cfg rs s).times j =
        if s.currentIndex ≤ j ∧ j < cfg.NUM_READINGS ∧ j - s.currentIndex < rs.length
        then (rs.getD (j - s.currentIndex) (0, 0)).1 else s.times j) ∧
    ((triggers cfg rs s).data j =
        if s.currentIndex ≤ j ∧ j < cfg.NUM_READINGS ∧ j - s.currentIndex < rs.length
        then (rs.getD (j - s.currentIndex) (0, 0)).2 else s.data j) := by
  induction rs generalizing s with
  | nil => simp [triggers_nil]
  | cons r rs ih =>
    rw [triggers_cons]
    obtain ⟨iht, ihd⟩ := ih (Timer0A_Handler cfg r.1 r.2 s)
    rw [iht, ihd, handler_index, handler_times, handler_data]
    by_cases hk : s.currentIndex < cfg.NUM_READINGS
    · simp only [hk, if_true, List.length_cons]
      rcases Nat.lt_trichotomy j s.currentIndex with hj | hj | hj
      · have h1 : ¬ (s.currentIndex + 1 ≤ j ∧ j < cfg.NUM_READINGS ∧
            j - (s.currentIndex + 1) < rs.length) := by omega
        have h2 : ¬ (s.currentIndex ≤ j ∧ j < cfg.NUM_READINGS ∧
            j - s.currentIndex < rs.length + 1) := by omega
        have h3 : j ≠ s.currentIndex := by omega
        simp [h1, h2, h3, store]
      · subst hj
        simp [store, hk]
      · have h3 : j ≠ s.currentIndex := by omega
        have h4 : j - s.currentIndex = (j - (s.currentIndex + 1)) + 1 := by omega
        have h5 : (s.currentIndex + 1 ≤ j ∧ j < cfg.NUM_READINGS ∧
            j - (s.currentIndex + 1) < rs.length) ↔ (s.currentIndex ≤ j ∧
            j < cfg.NUM_READINGS ∧ j - s.currentIndex < rs.length + 1) := by omega
        simp only [h5]
        rw [h4]
        simp [store, h3]
    · have h1 : ¬ (s.currentIndex ≤ j ∧ j < cfg.NUM_READINGS ∧
          j - s.currentIndex < rs.length) := by omega
      have h2 : ¬ (s.currentIndex ≤ j ∧ j < cfg.NUM_READINGS ∧
          j - s.currentIndex < (r :: rs).length) := by omega
      rw [if_neg hk, if_neg hk, if_neg hk, if_neg h1, if_neg h1, if_neg h2, if_neg h2]
      exact ⟨rfl, rfl⟩

/-! ## Running minimum and maximum -/

/-- A loop that keeps a running minimum in the first component and a running maximum in the
second one, by two independent tests, ends with the least and the greatest of the start
values and the values seen. -/
theorem foldl_min_max {ι : Type} (f : ι → Int) (l : List ι) (a b : Int) :
    let r := l.foldl (fun (acc : Int × Int) i =>
      (if f i < acc.1 then f i else acc.1, if f i > acc.2 then f i else acc.2)) (a, b)
    (r.1 ≤ a ∧ (∀ i ∈ l, r.1 ≤ f i) ∧ (r.1 = a ∨ ∃ i ∈ l, r.1 = f i)) ∧
    (b ≤ r.2 ∧ (∀ i ∈ l, f i ≤ r.2) ∧ (r.2 = b ∨ ∃ i ∈ l, r.2 = f i)) := by
  induction l generalizing a b with
  | nil => simp
  | cons x xs ih =>
    simp only [List.foldl_cons]
    have ha : (if f x < a then f x else a) ≤ a ∧ (if f x < a then f x else a) ≤ f x ∧
        ((if f x < a then f x else a) = a ∨ (if f x < a then f x else a) = f x) := by
      split_ifs <;> omega
    have hb : b ≤ (if f x > b then f x else b) ∧ f x ≤ (if f x > b then f x else b) ∧
        ((if f x > b then f x else b) = b ∨ (if f x > b then f x else b) = f x) := by
      split_ifs <;> omega
    generalize (if f x < a then f x else a) = a1 at ha
    generalize (if f x > b then f x else b) = b1 at hb
    obtain ⟨⟨h1, h2, h3⟩, h4, h5, h6⟩ := ih a1 b1
    obtain ⟨ha1, ha2, ha3⟩ := ha
    obtain ⟨hb1, hb2, hb3⟩ := hb
    refine ⟨⟨le_trans h1 ha1, ?_, ?_⟩, le_trans hb1 h4, ?_, ?_⟩
    · intro i hi
      rcases List.mem_cons.mp hi with rfl | hi
      · exact le_trans h1 ha2
      · exact h2 i hi
    · rcases h3 with h3 | ⟨i, hi, h3⟩
      · rcases ha3 with ha3 | ha3
        · exact Or.inl (h3.trans ha3)
        · exact Or.inr ⟨x, List.mem_cons_self _ _, h3.trans ha3⟩
      · exact Or.inr ⟨i, List.mem_cons_of_mem _ hi, h3⟩
    · intro i hi
      rcases List.mem_cons.mp hi with rfl | hi
      · exact le_trans hb2 h4
      · exact h5 i hi
    · rcases h6 with h6 | ⟨i, hi, h6⟩
      · rcases hb3 with hb3 | hb3
        · exact Or.inl (h6.trans hb3)
        · exact Or.inr ⟨x, List.mem_cons_self _ _, h6.trans hb3⟩
      · exact Or.inr ⟨i, List.mem_cons_of_mem _ hi, h6⟩

/-- The two components of the running minimum and maximum loop do not interact. -/
theorem foldl_min_max_congr {ι : Type} (f g : ι → Int) (l : List ι) (a b : Int)
    (h : ∀ i ∈ l, f i = g i) :
    l.foldl (fun (acc : Int × Int) i =>
      (if f i < acc.1 then f i else acc.1, if f i > acc.2 then f i else acc.2)) (a, b) =
    l.foldl (fun (acc : Int × Int) i =>
      (if g i < acc.1 then g i else acc.1, if g i > acc.2 then g i else acc.2)) (a, b) := by
  induction l generalizing a b with
  | nil => rfl
  | cons x xs ih =>
    simp only [List.foldl_cons]
    rw [h x (List.mem_cons_self _ _)]
    exact ih _ _ (fun i hi => h i (List.mem_cons_of_mem _ hi))

theorem mem_range'_one (n i : Nat) : i ∈ List.range' 1 (n - 1) ↔ 1 ≤ i ∧ i < n := by
  rw [List.mem_range'_1]
  omega

/-- The function `findJitter` as the loop over the differences `d i = times i - times (i-1)`. -/
theorem findJitter_eq (cfg : Config) (times : Nat → Int) :
    findJitter cfg times =
      ((List.range' 1 (cfg.NUM_READINGS - 1)).foldl (fun (acc : Int × Int) i =>
        (if times i - times (i - 1) < acc.1 then times i - times (i - 1) else acc.1,
         if times i - times (i - 1) > acc.2 then times i - times (i - 1) else acc.2))
        (times 1 - times 0, times 1 - times 0)).2 -
      ((List.range' 1 (cfg.NUM_READINGS - 1)).foldl (fun (acc : Int × Int) i =>
        (if times i - times (i - 1) < acc.1 then times i - times (i - 1) else acc.1,
         if times i - times (i - 1) > acc.2 then times i - times (i - 1) else acc.2))
        (times 1 - times 0, times 1 - times 0)).1 := rfl

/-- The smallest and the largest difference found by `findJitter`: both are attained on
`[1, NUM_READINGS)` and bound every difference there. -/
theorem findJitter_bounds (cfg : Config) (times : Nat → Int) (hN : 2 ≤ cfg.NUM_READINGS) :
    ∃ lo hi : Int, findJitter cfg times = hi - lo ∧
      (∀ i, 1 ≤ i → i < cfg.NUM_READINGS → lo ≤ times i - times (i - 1)) ∧
      (∃ i, 1 ≤ i ∧ i < cfg.NUM_READINGS ∧ lo = times i - times (i - 1)) ∧
      (∀ i, 1 ≤ i → i < cfg.NUM_READINGS → times i - times (i - 1) ≤ hi) ∧
      (∃ i, 1 ≤ i ∧ i < cfg.NUM_READINGS ∧ hi = times i - times (i - 1)) := by
  obtain ⟨⟨_, h2, h3⟩, _, h5, h6⟩ := foldl_min_max (fun i => times i - times (i - 1))
    (List.range' 1 (cfg.NUM_READINGS - 1)) (times 1 - times 0) (times 1 - times 0)
  refine ⟨_, _, findJitter_eq cfg times, ?_, ?_, ?_, ?_⟩
  · intro i h1 hi
    exact h2 i ((mem_range'_one _ _).mpr ⟨h1, hi⟩)
  · rcases h3 with h3 | ⟨i, hi, h3⟩
    · exact ⟨1, le_refl 1, hN, h3⟩
    · obtain ⟨h1, hi⟩ := (mem_range'_one _ _).mp hi
      exact ⟨i, h1, hi, h3⟩
  · intro i h1 hi
    exact h5 i ((mem_range'_one _ _).mpr ⟨h1, hi⟩)
  · rcases h6 with h6 | ⟨i, hi, h6⟩
    · exact ⟨1, le_refl 1, hN, h6⟩
    · obtain ⟨h1, hi⟩ := (mem_range'_one _ _).mp hi
      exact ⟨i, h1, hi, h6⟩

/-! ## Claims on the sampler -/

/-- C1: from an empty buffer (`currentIndex = 0`), after any sequence of `N` runs of
`Timer0A_Handler`, with arbitrary clock and converter readings, `currentIndex` equals
`min N NUM_READINGS`. -/
theorem count_after_triggers (cfg : Config) (s : State) (readings : List (Int × Int))
    (h0 : s.currentIndex = 0) :
    (triggers cfg readings s).currentIndex = min readings.length cfg.NUM_READINGS := by
  rw [triggers_index, h0]
  simp

theorem count_after_triggers_witness :
    reset.currentIndex = 0 ∧
    (triggers ⟨2, 4096⟩ [(90, 7), (80, 8), (70, 9)] reset).currentIndex = min 3 2 :=
  ⟨rfl, count_after_triggers ⟨2, 4096⟩ reset [(90, 7), (80, 8), (70, 9)] rfl⟩

/-- C2: when the buffer is full (`currentIndex = NUM_READINGS`), one run of
`Timer0A_Handler` leaves `times`, `data` and `currentIndex` unchanged, whatever the clock
and converter readings. -/
theorem full_buffer_trigger_noop (cfg : Config) (s : State) (clock adc : Int)
    (hfull : s.currentIndex = cfg.NUM_READINGS) :
    (Timer0A_Handler cfg clock adc s).times = s.times ∧
    (Timer0A_Handler cfg clock adc s).data = s.data ∧
    (Timer0A_Handler cfg clock adc s).currentIndex = s.currentIndex := by
  rw [handler_times, handler_data, handler_index]
  simp [hfull]

theorem full_buffer_trigger_noop_witness :
    (State.mk (ofList [90, 80] 0) (ofList [7, 8] 0) 2 8 0).currentIndex =
      (Config.mk 2 4096).NUM_READINGS ∧
    (Timer0A_Handler ⟨2, 4096⟩ 70 9 ⟨ofList [90, 80] 0, ofList [7, 8] 0, 2, 8, 0⟩).times =
      ofList [90, 80] 0 ∧
    (Timer0A_Handler ⟨2, 4096⟩ 70 9 ⟨ofList [90, 80] 0, ofList [7, 8] 0, 2, 8, 0⟩).data =
      ofList [7, 8] 0 ∧
    (Timer0A_Handler ⟨2, 4096⟩ 70 9 ⟨ofList [90, 80] 0, ofList [7, 8] 0, 2, 8, 0⟩).currentIndex
      = 2 :=
  ⟨rfl, full_buffer_trigger_noop ⟨2, 4096⟩ ⟨ofList [90, 80] 0, ofList [7, 8] 0, 2, 8, 0⟩
    70 9 rfl⟩

/-- C3: from an empty buffer, after the triggers `readings` followed by any further
triggers `later`, every slot `i < min k NUM_READINGS` (`k` the length of `readings`) holds
the clock value and the converter value seen by trigger number `i`: slots are filled in
insertion order and no later trigger overwrites them. -/
theorem slots_in_insertion_order (cfg : Config) (s : State)
    (readings later : List (Int × Int)) (i : Nat) (c v : Int)
    (h0 : s.currentIndex = 0) (hi : i < min readings.length cfg.NUM_READINGS)
    (hr : readings[i]? = some (c, v)) :
    (triggers cfg (readings ++ later) s).times i = c ∧
    (triggers cfg (readings ++ later) s).data i = v := by
  have hlen : i < readings.length := by omega
  have hN : i < cfg.NUM_READINGS := by omega
  obtain ⟨ht, hd⟩ := triggers_slots cfg (readings ++ later) s i
  have hget : (readings ++ later).getD i (0, 0) = (c, v) := by
    rw [List.getD_eq_getElem?_getD, List.getElem?_append_left hlen, hr]
    rfl
  have hcond : s.currentIndex ≤ i ∧ i < cfg.NUM_READINGS ∧
      i - s.currentIndex < (readings ++ later).length := by
    rw [h0, List.length_append]
    omega
  rw [ht, hd, if_pos hcond, if_pos hcond, h0, Nat.sub_zero, hget]
  exact ⟨rfl, rfl⟩

theorem slots_in_insertion_order_witness :
    reset.currentIndex = 0 ∧ 1 < min 2 2 ∧
    ([(90, 7), (80, 8)] : List (Int × Int))[1]? = some (80, 8) ∧
    (triggers ⟨2, 4096⟩ ([(90, 7), (80, 8)] ++ [(70, 9)]) reset).times 1 = 80 ∧
    (triggers ⟨2, 4096⟩ ([(90, 7), (80, 8)] ++ [(70, 9)]) reset).data 1 = 8 :=
  ⟨rfl, by decide, rfl,
    slots_in_insertion_order ⟨2, 4096⟩ reset [(90, 7), (80, 8)] [(70, 9)] 1 80 8 rfl
      (by decide) rfl⟩

/-! ## Claims on the jitter analysis -/

/-- C4: for a full timestamp buffer of length `N >= 2`, `findJitter` returns
`max(d) - min(d)`, the maximum and the minimum being taken over all the `N - 1` differences
`d i = times i - times (i - 1)`, `i` in `[1, N)`, in exact integer arithmetic. -/
theorem findJitter_max_sub_min (cfg : Config) (times : Nat → Int)
    (hN : 2 ≤ cfg.NUM_READINGS) :
    findJitter cfg times =
      (Finset.Ico 1 cfg.NUM_READINGS).sup' (Finset.nonempty_Ico.mpr hN)
          (fun i => times i - times (i - 1)) -
      (Finset.Ico 1 cfg.NUM_READINGS).inf' (Finset.nonempty_Ico.mpr hN)
          (fun i => times i - times (i - 1)) := by
  obtain ⟨lo, hi, hj, hlo, ⟨i, hi1, hiN, hloi⟩, hhi, ⟨j, hj1, hjN, hhij⟩⟩ :=
    findJitter_bounds cfg times hN
  have hsup : (Finset.Ico 1 cfg.NUM_READINGS).sup' (Finset.nonempty_Ico.mpr hN)
      (fun i => times i - times (i - 1)) = hi := by
    apply le_antisymm
    · apply Finset.sup'_le
      intro k hk
      obtain ⟨hk1, hkN⟩ := Finset.mem_Ico.mp hk
      exact hhi k hk1 hkN
    · rw [hhij]
      exact Finset.le_sup' (fun i => times i - times (i - 1))
        (Finset.mem_Ico.mpr ⟨hj1, hjN⟩)
  have hinf : (Finset.Ico 1 cfg.NUM_READINGS).inf' (Finset.nonempty_Ico.mpr hN)
      (fun i => times i - times (i - 1)) = lo := by
    apply le_antisymm
    · rw [hloi]
      exact Finset.inf'_le (fun i => times i - times (i - 1))
        (Finset.mem_Ico.mpr ⟨hi1, hiN⟩)
    · apply Finset.le_inf'
      intro k hk
      obtain ⟨hk1, hkN⟩ := Finset.mem_Ico.mp hk
      exact hlo k hk1 hkN
  rw [hsup, hinf, hj]

theorem findJitter_max_sub_min_witness :
    findJitter ⟨4, 4096⟩ (ofList [0, 10, 25, 30] 0) = 10 ∧
    (List.range' 1 3).map (fun i => ofList [0, 10, 25, 30] 0 i - ofList [0, 10, 25, 30] 0 (i - 1))
      = [10, 15, 5] ∧
    findJitter ⟨4, 4096⟩ (ofList [0, 10, 25, 30] 0) =
      (Finset.Ico 1 4).sup' (Finset.nonempty_Ico.mpr (by decide))
          (fun i => ofList [0, 10, 25, 30] 0 i - ofList [0, 10, 25, 30] 0 (i - 1)) -
      (Finset.Ico 1 4).inf' (Finset.nonempty_Ico.mpr (by decide))
          (fun i => ofList [0, 10, 25, 30] 0 i - ofList [0, 10, 25, 30] 0 (i - 1)) :=
  ⟨by decide, by decide,
    findJitter_max_sub_min ⟨4, 4096⟩ (ofList [0, 10, 25, 30] 0) (by decide)⟩

/-- C5: adding one integer constant `c` to every timestamp does not change the value of
`findJitter`. -/
theorem findJitter_add_const (cfg : Config) (times : Nat → Int) (c : Int) :
    findJitter cfg (fun i => times i + c) = findJitter cfg times := by
  rw [findJitter_eq, findJitter_eq]
  have h0 : times 1 + c - (times 0 + c) = times 1 - times 0 := by omega
  rw [h0]
  rw [foldl_min_max_congr (fun i => times i + c - (times (i - 1) + c))
    (fun i => times i - times (i - 1)) _ _ _ (fun i _ => by simp only; omega)]

/-! ## Lemmas on the passes of `plot` -/

/-- The table after a run of tally steps: each entry has grown by the number of steps whose
sample equals its index. -/
theorem tally_table (data : Nat → Int) (l : List Nat) (occ : Int → Int) (m v : Int) :
    (l.foldl (tallyStep data) (occ, m)).1 v =
      occ v + (l.countP (fun i => decide (data i = v)) : Nat) := by
  induction l generalizing occ m with
  | nil => simp
  | cons x xs ih =>
    rw [List.foldl_cons]
    have hstep : tallyStep data (occ, m) x =
        (store occ (data x) (occ (data x) + 1),
          if store occ (data x) (occ (data x) + 1) (data x) > m
          then store occ (data x) (occ (data x) + 1) (data x) else m) := rfl
    rw [hstep, ih, List.countP_cons]
    by_cases h : data x = v
    · subst h
      simp [store]
      omega
    · have h1 : v ≠ data x := fun e => h e.symm
      simp [store, h, h1]

/-- The table after the second pass counts the words `data[0], ..., data[NUM_READINGS]`:
the recorded samples and the word that follows them. -/
theorem secondPass_table (cfg : Config) (data : Nat → Int) (occ : Int → Int) (v : Int) :
    (secondPass cfg data occ).1 v =
      occ v + recordedCount cfg data v + (if data cfg.NUM_READINGS = v then 1 else 0) := by
  unfold secondPass recordedCount
  rw [tally_table, List.range_succ, List.countP_append]
  by_cases h : data cfg.NUM_READINGS = v
  · simp [h, List.countP_cons]
    omega
  · simp [h, List.countP_cons]

/-- The first pass is the running minimum and maximum loop with its components swapped. -/
theorem firstPass_swap (data : Nat → Int) (l : List Nat) (a b : Int) :
    l.foldl (fun (acc : Int × Int) i =>
      (if acc.1 < data i then data i else acc.1, if acc.2 > data i then data i else acc.2))
      (b, a) =
    Prod.swap (l.foldl (fun (acc : Int × Int) i =>
      (if data i < acc.1 then data i else acc.1, if data i > acc.2 then data i else acc.2))
      (a, b)) := by
  induction l generalizing a b with
  | nil => rfl
  | cons x xs ih =>
    simp only [List.foldl_cons]
    exact ih _ _

/-- After the first pass `minValue <= maxValue`. -/
theorem firstPass_le (cfg : Config) (data : Nat → Int) :
    (firstPass cfg data).2 ≤ (firstPass cfg data).1 := by
  have hsw : firstPass cfg data = Prod.swap ((List.range cfg.NUM_READINGS).foldl
      (fun (acc : Int × Int) i =>
        (if data i < acc.1 then data i else acc.1, if data i > acc.2 then data i else acc.2))
      (data 0, data 0)) := firstPass_swap data _ _ _
  obtain ⟨⟨h1, _, _⟩, h4, _, _⟩ := foldl_min_max data (List.range cfg.NUM_READINGS)
    (data 0) (data 0)
  rw [hsw]
  exact le_trans h1 h4

theorem countUp_length (lo hi : Int) : (countUp lo hi).length = (hi + 1 - lo).toNat := by
  unfold countUp
  rw [List.length_map, List.length_range]

theorem shiftLoop_eq (shift : Int) (display : List Cmd) :
    shiftLoop shift display = display ++ List.replicate shift.toNat Cmd.ST7735_PlotNext := by
  unfold shiftLoop
  induction shift.toNat with
  | zero => simp
  | succ n ih =>
    rw [List.range_succ, List.foldl_append, ih]
    simp [List.replicate_succ']

theorem barLoop_fold (occ : Int → Int) (l : List Int) (display : List Cmd) :
    l.foldl (fun d i => (d ++ [Cmd.ST7735_PlotBar (occ i)]) ++ [Cmd.ST7735_PlotNext]) display
      = display ++ l.flatMap (fun i => [Cmd.ST7735_PlotBar (occ i), Cmd.ST7735_PlotNext]) := by
  induction l generalizing display with
  | nil => simp
  | cons x xs ih =>
    rw [List.foldl_cons, ih]
    simp

theorem barLoop_eq (occ : Int → Int) (lo hi : Int) (display : List Cmd) :
    barLoop occ lo hi display = display ++
      (countUp lo hi).flatMap (fun i => [Cmd.ST7735_PlotBar (occ i), Cmd.ST7735_PlotNext]) :=
  barLoop_fold occ _ display

theorem barHeights_replicate (n : Nat) :
    barHeights (List.replicate n Cmd.ST7735_PlotNext) = [] := by
  induction n with
  | zero => rfl
  | succ n ih =>
    rw [List.replicate_succ]
    simp [barHeights]

theorem barHeights_bars (occ : Int → Int) (l : List Int) :
    barHeights (l.flatMap (fun i => [Cmd.ST7735_PlotBar (occ i), Cmd.ST7735_PlotNext]))
      = l.map occ := by
  induction l with
  | nil => rfl
  | cons x xs ih =>
    simp only [List.flatMap_cons, List.map_cons]
    rw [← ih]
    simp [barHeights]

theorem shiftRight_nonneg (plotWidth : Int) : 0 ≤ shiftRight plotWidth := by
  unfold shiftRight
  by_cases h : plotWidth > 127
  · simp [h]
  · simp only [h, if_false]
    rw [Int.tdiv_eq_ediv (by omega) (by decide)]
    omega

theorem plot_shiftRight (cfg : Config) (data : Nat → Int) (occ : Int → Int) :
    (plot cfg data occ).shiftRight = shiftRight (plot cfg data occ).plotWidth := rfl

theorem recordedCount_const (cfg : Config) (data : Nat → Int) (c : Int)
    (h : ∀ i, i < cfg.NUM_READINGS → data i = c) :
    recordedCount cfg data c = cfg.NUM_READINGS := by
  unfold recordedCount
  rw [List.countP_eq_length.mpr, List.length_range]
  intro i hi
  simpa using h i (List.mem_range.mp hi)

/-- On a buffer of one value the first pass finds that value as minimum and maximum. -/
theorem firstPass_const (cfg : Config) (data : Nat → Int) (c : Int) (h0 : data 0 = c)
    (h : ∀ i, i < cfg.NUM_READINGS → data i = c) :
    firstPass cfg data = (c, c) := by
  have hsw : firstPass cfg data = Prod.swap ((List.range cfg.NUM_READINGS).foldl
      (fun (acc : Int × Int) i =>
        (if data i < acc.1 then data i else acc.1, if data i > acc.2 then data i else acc.2))
      (data 0, data 0)) := firstPass_swap data _ _ _
  obtain ⟨⟨_, _, h3⟩, _, _, h6⟩ := foldl_min_max data (List.range cfg.NUM_READINGS)
    (data 0) (data 0)
  rw [hsw]
  apply Prod.ext
  · rcases h6 with h6 | ⟨i, hi, h6⟩
    · exact h6.trans h0
    · exact h6.trans (h i (List.mem_range.mp hi))
  · rcases h3 with h3 | ⟨i, hi, h3⟩
    · exact h3.trans h0
    · exact h3.trans (h i (List.mem_range.mp hi))

theorem countUp_self (c : Int) : countUp c c = [c] := by
  unfold countUp
  have h : (c + 1 - c).toNat = 1 := by omega
  rw [h]
  simp [List.range_succ]

theorem thirdPass_self (occ : Int → Int) (c : Int) : thirdPass occ c c = (occ c, occ c) := by
  unfold thirdPass
  rw [countUp_self]
  simp

theorem tableSum_self (occ : Int → Int) (c : Int) : tableSum occ c c = occ c := by
  unfold tableSum
  rw [countUp_self]
  simp

/-- The function `plot` on a buffer of the one value `c`, with `occurances` all zero: the
entry `occurances[c]` counts the recorded samples, and the word past the end when it is `c`
too. -/
theorem plot_const (cfg : Config) (data : Nat → Int) (c : Int) (h0 : data 0 = c)
    (h : ∀ i, i < cfg.NUM_READINGS → data i = c) :
    (plot cfg data zeroTable).plotWidth = 0 ∧
    (plot cfg data zeroTable).minOccurences =
      cfg.NUM_READINGS + (if data cfg.NUM_READINGS = c then 1 else 0) ∧
    (plot cfg data zeroTable).maxOccurences =
      cfg.NUM_READINGS + (if data cfg.NUM_READINGS = c then 1 else 0) := by
  have hv : (secondPass cfg data zeroTable).1 c =
      cfg.NUM_READINGS + (if data cfg.NUM_READINGS = c then 1 else 0) := by
    rw [secondPass_table, recordedCount_const cfg data c h]
    simp [zeroTable]
  have hmin : (plot cfg data zeroTable).minOccurences =
      (thirdPass (secondPass cfg data zeroTable).1 (firstPass cfg data).2
        (firstPass cfg data).1).1 := rfl
  have hmax : (plot cfg data zeroTable).maxOccurences =
      (thirdPass (secondPass cfg data zeroTable).1 (firstPass cfg data).2
        (firstPass cfg data).1).2 := rfl
  have hw : (plot cfg data zeroTable).plotWidth =
      (firstPass cfg data).1 - (firstPass cfg data).2 := rfl
  rw [hmin, hmax, hw, firstPass_const cfg data c h0 h, thirdPass_self, hv]
  simp

/-- After the first pass every recorded sample lies in `[minValue, maxValue]`. -/
theorem firstPass_bounds (cfg : Config) (data : Nat → Int) (i : Nat)
    (hi : i < cfg.NUM_READINGS) :
    (firstPass cfg data).2 ≤ data i ∧ data i ≤ (firstPass cfg data).1 := by
  have hsw : firstPass cfg data = Prod.swap ((List.range cfg.NUM_READINGS).foldl
      (fun (acc : Int × Int) i =>
        (if data i < acc.1 then data i else acc.1, if data i > acc.2 then data i else acc.2))
      (data 0, data 0)) := firstPass_swap data _ _ _
  obtain ⟨⟨_, h2, _⟩, _, h5, _⟩ := foldl_min_max data (List.range cfg.NUM_READINGS)
    (data 0) (data 0)
  rw [hsw]
  exact ⟨h2 i (List.mem_range.mpr hi), h5 i (List.mem_range.mpr hi)⟩

/-- Exactly one index of `lo, lo + 1, ..., lo + n - 1` equals `w` when `w` is among them,
and none does otherwise. -/
theorem sum_indicator_range (w lo : Int) (n : Nat) :
    ((List.range n).map (fun (k : Nat) => if w = lo + (k : Int) then (1 : Int) else 0)).sum =
      if lo ≤ w ∧ w < lo + n then 1 else 0 := by
  induction n with
  | zero =>
    have h : ¬ (lo ≤ w ∧ w < lo + ((0 : Nat) : Int)) := by omega
    rw [if_neg h]
    rfl
  | succ n ih =>
    rw [List.range_succ, List.map_append, List.sum_append, ih]
    simp only [List.map_cons, List.map_nil, List.sum_cons, List.sum_nil, add_zero]
    by_cases h1 : w = lo + (n : Int)
    · have h2 : ¬ (lo ≤ w ∧ w < lo + (n : Int)) := by omega
      have h3 : lo ≤ w ∧ w < lo + ((n + 1 : Nat) : Int) := by omega
      rw [if_neg h2, if_pos h1, if_pos h3]
      rfl
    · have h4 : (lo ≤ w ∧ w < lo + (n : Int)) ↔ (lo ≤ w ∧ w < lo + ((n + 1 : Nat) : Int)) := by
        omega
      rw [if_neg h1]
      simp only [h4, add_zero]

theorem sum_indicator_countUp (w lo hi : Int) :
    ((countUp lo hi).map (fun v => if w = v then (1 : Int) else 0)).sum =
      if lo ≤ w ∧ w ≤ hi then 1 else 0 := by
  unfold countUp
  rw [List.map_map]
  have h := sum_indicator_range w lo (hi + 1 - lo).toNat
  have hc : (lo ≤ w ∧ w < lo + ((hi + 1 - lo).toNat : Int)) ↔ (lo ≤ w ∧ w ≤ hi) := by omega
  rw [if_congr hc rfl rfl] at h
  exact h

/-- Summed over the indices `lo .. hi`, the numbers of steps of a list whose sample equals
the index give the number of steps whose sample lies in `[lo, hi]`. -/
theorem sum_countP_countUp (data : Nat → Int) (l : List Nat) (lo hi : Int) :
    ((countUp lo hi).map (fun v => ((l.countP (fun i => decide (data i = v)) : Nat) : Int))).sum
      = ((l.countP (fun i => decide (lo ≤ data i ∧ data i ≤ hi)) : Nat) : Int) := by
  induction l with
  | nil => simp
  | cons x xs ih =>
    have hsplit : ((countUp lo hi).map
        (fun v => (((x :: xs).countP (fun i => decide (data i = v)) : Nat) : Int))).sum =
        ((countUp lo hi).map
          (fun v => ((xs.countP (fun i => decide (data i = v)) : Nat) : Int))).sum +
        ((countUp lo hi).map (fun v => if data x = v then (1 : Int) else 0)).sum := by
      rw [← List.sum_map_add]
      congr 1
      apply List.map_congr_left
      intro v _
      rw [List.countP_cons]
      by_cases h : data x = v <;> simp [h]
    rw [hsplit, ih, sum_indicator_countUp, List.countP_cons]
    by_cases h : lo ≤ data x ∧ data x ≤ hi <;> simp [h]

/-- The sum of the entries `occurances[minValue .. maxValue]` after the second pass, from
a table of zeros: the recorded samples, and one more when the word past the end of `data`
lies in `[minValue, maxValue]`. -/
theorem tableSum_secondPass (cfg : Config) (data : Nat → Int) :
    tableSum (secondPass cfg data zeroTable).1 (firstPass cfg data).2 (firstPass cfg data).1 =
      cfg.NUM_READINGS +
        (if (firstPass cfg data).2 ≤ data cfg.NUM_READINGS ∧
            data cfg.NUM_READINGS ≤ (firstPass cfg data).1 then 1 else 0) := by
  have htab : ∀ v, (secondPass cfg data zeroTable).1 v =
      (((List.range (cfg.NUM_READINGS + 1)).countP (fun i => decide (data i = v)) : Nat) :
        Int) := by
    intro v
    unfold secondPass
    rw [tally_table]
    simp [zeroTable]
  unfold tableSum
  rw [List.map_congr_left (fun v _ => htab v), sum_countP_countUp, List.range_succ,
    List.countP_append]
  have hall : (List.range cfg.NUM_READINGS).countP
      (fun i => decide ((firstPass cfg data).2 ≤ data i ∧ data i ≤ (firstPass cfg data).1))
      = cfg.NUM_READINGS := by
    rw [List.countP_eq_length.mpr, List.length_range]
    intro i hi
    simpa using firstPass_bounds cfg data i (List.mem_range.mp hi)
  rw [hall]
  by_cases h : (firstPass cfg data).2 ≤ data cfg.NUM_READINGS ∧
      data cfg.NUM_READINGS ≤ (firstPass cfg data).1 <;> simp [h, List.countP_cons]

/-! ## Claims on the histogram plot -/

/-- C6 (the code departs from the claim): for the full buffer `[1,1,2,3,3,3]`, all values in
`[0, ADC_RANGE)`, followed in memory by a word equal to `3`, and `occurances` all zero, the
tally pass of `plot` leaves `occurances[3] = 4` and `mode = 4`, whereas three recorded
samples are equal to `3`.  With the constants of the build and `1000` recorded samples all
equal to `3`, followed by a word equal to `3`, it leaves `occurances[3] = 1001`. -/
theorem tally_counts_word_past_end :
    ((∀ i, i < 6 → 0 ≤ ofList [1, 1, 2, 3, 3, 3] 3 i ∧ ofList [1, 1, 2, 3, 3, 3] 3 i < 4096) ∧
      recordedCount ⟨6, 4096⟩ (ofList [1, 1, 2, 3, 3, 3] 3) 3 = 3 ∧
      (secondPass ⟨6, 4096⟩ (ofList [1, 1, 2, 3, 3, 3] 3) zeroTable).1 3 = 4 ∧
      (secondPass ⟨6, 4096⟩ (ofList [1, 1, 2, 3, 3, 3] 3) zeroTable).2 = 4) ∧
    (recordedCount build (fun _ => 3) 3 = 1000 ∧
      (secondPass build (fun _ => 3) zeroTable).1 3 = 1001) := by
  have hc : recordedCount build (fun _ => 3) 3 = 1000 :=
    recordedCount_const build (fun _ => 3) 3 (fun _ _ => rfl)
  refine ⟨by decide, hc, ?_⟩
  rw [secondPass_table, hc]
  rfl

/-- C7 (the code departs from the claim): for the full buffer `[1,1,2,3,3,3]` followed in
memory by a word equal to `3`, and `occurances` all zero, the entries
`occurances[minValue .. maxValue]` after the tally pass of `plot` sum to `7`, one more than
the `6` recorded samples.  With the constants of the build and `1000` recorded samples all
equal to `3`, followed by a word equal to `3`, they sum to `1001`. -/
theorem tally_sum_exceeds_count :
    (firstPass ⟨6, 4096⟩ (ofList [1, 1, 2, 3, 3, 3] 3) = (3, 1) ∧
      tableSum (secondPass ⟨6, 4096⟩ (ofList [1, 1, 2, 3, 3, 3] 3) zeroTable).1 1 3 = 6 + 1) ∧
    (firstPass build (fun _ => 3) = (3, 3) ∧
      tableSum (secondPass build (fun _ => 3) zeroTable).1 3 3 = 1000 + 1) := by
  refine ⟨by decide, firstPass_const build (fun _ => 3) 3 rfl (fun _ _ => rfl), ?_⟩
  rw [tableSum_self, secondPass_table,
    recordedCount_const build (fun _ => 3) 3 (fun _ _ => rfl)]
  rfl

/-- C8: for every `plotWidth >= 0`, the centring offset computed by `plot` is
`(127 - plotWidth) / 2` (integer division) when `plotWidth <= 127`, and `0` when
`plotWidth > 127`. -/
theorem shiftRight_centering (plotWidth : Int) (h0 : 0 ≤ plotWidth) :
    (plotWidth ≤ 127 → shiftRight plotWidth = (127 - plotWidth) / 2) ∧
    (plotWidth > 127 → shiftRight plotWidth = 0) := by
  constructor
  · intro h
    have hn : ¬ plotWidth > 127 := by omega
    unfold shiftRight
    simp only [hn, if_false]
    exact Int.tdiv_eq_ediv (by omega) (by decide)
  · intro h
    unfold shiftRight
    simp only [h, if_true]

theorem shiftRight_centering_witness :
    (0 : Int) ≤ 2 ∧
    (((2 : Int) ≤ 127 → shiftRight 2 = (127 - 2) / 2) ∧ ((2 : Int) > 127 → shiftRight 2 = 0)) ∧
    shiftRight 2 = 62 ∧ shiftRight 200 = 0 :=
  ⟨by decide, shiftRight_centering 2 (by decide), by decide, by decide⟩

/-- C10 (the code departs from the claim): for the full buffer `[5,5,5]` of one constant
value, followed in memory by a word equal to `5`, and `occurances` all zero, `plot` computes
`plotWidth = 0` and `minOccurences = maxOccurences = 4`, one more than the `3` recorded
samples.  With the constants of the build and `1000` recorded samples all equal to `5`,
followed by a word equal to `5`, it computes `minOccurences = maxOccurences = 1001`. -/
theorem constant_stream_counts_word_past_end :
    ((plot ⟨3, 4096⟩ (ofList [5, 5, 5] 5) zeroTable).plotWidth = 0 ∧
      (plot ⟨3, 4096⟩ (ofList [5, 5, 5] 5) zeroTable).minOccurences = 3 + 1 ∧
      (plot ⟨3, 4096⟩ (ofList [5, 5, 5] 5) zeroTable).maxOccurences = 3 + 1) ∧
    ((plot build (fun _ => 5) zeroTable).plotWidth = 0 ∧
      (plot build (fun _ => 5) zeroTable).minOccurences = 1000 + 1 ∧
      (plot build (fun _ => 5) zeroTable).maxOccurences = 1000 + 1) := by
  refine ⟨by decide, ?_⟩
  exact plot_const build (fun _ => 5) 5 rfl (fun _ _ => rfl)

/-! ## Lemmas on the accesses and on the first pass -/

theorem tallyTraced_fold (data : Nat → Int) (l : List Nat) (st : (Int → Int) × Int)
    (log : List (Nat × Int)) :
    l.foldl (tallyStepTraced data) (st, log) =
      (l.foldl (tallyStep data) st, log ++ l.map (fun i => (i, data i))) := by
  induction l generalizing st log with
  | nil => simp
  | cons x xs ih =>
    rw [List.foldl_cons]
    have hstep : tallyStepTraced data (st, log) x = (tallyStep data st x, log ++ [(x, data x)]) :=
      rfl
    rw [hstep, ih]
    simp

theorem secondPassTraced_eq (cfg : Config) (data : Nat → Int) (occ : Int → Int) :
    secondPassTraced cfg data occ =
      (secondPass cfg data occ,
        (List.range (cfg.NUM_READINGS + 1)).map (fun i => (i, data i))) := by
  unfold secondPassTraced secondPass
  rw [tallyTraced_fold]
  simp

/-- The sum of the entries `occurances[lo .. hi]` after a run of tally steps has grown by
the number of steps whose sample lies in `[lo, hi]`. -/
theorem tableSum_tally (data : Nat → Int) (l : List Nat) (occ : Int → Int) (m lo hi : Int) :
    tableSum (l.foldl (tallyStep data) (occ, m)).1 lo hi =
      tableSum occ lo hi +
        ((l.countP (fun i => decide (lo ≤ data i ∧ data i ≤ hi)) : Nat) : Int) := by
  unfold tableSum
  rw [List.map_congr_left (fun v _ => tally_table data l occ m v), List.sum_map_add,
    sum_countP_countUp]

/-- The first pass returns values of the buffer, when the buffer is not empty. -/
theorem firstPass_attained (cfg : Config) (data : Nat → Int) (hN : 0 < cfg.NUM_READINGS) :
    (∃ i, i < cfg.NUM_READINGS ∧ data i = (firstPass cfg data).2) ∧
    (∃ i, i < cfg.NUM_READINGS ∧ data i = (firstPass cfg data).1) := by
  have hsw : firstPass cfg data = Prod.swap ((List.range cfg.NUM_READINGS).foldl
      (fun (acc : Int × Int) i =>
        (if data i < acc.1 then data i else acc.1, if data i > acc.2 then data i else acc.2))
      (data 0, data 0)) := firstPass_swap data _ _ _
  obtain ⟨⟨_, _, h3⟩, _, _, h6⟩ := foldl_min_max data (List.range cfg.NUM_READINGS)
    (data 0) (data 0)
  rw [hsw]
  constructor
  · rcases h3 with h3 | ⟨i, hi, h3⟩
    · exact ⟨0, hN, h3.symm⟩
    · exact ⟨i, List.mem_range.mp hi, h3.symm⟩
  · rcases h6 with h6 | ⟨i, hi, h6⟩
    · exact ⟨0, hN, h6.symm⟩
    · exact ⟨i, List.mem_range.mp hi, h6.symm⟩

theorem mem_countUp (lo hi v : Int) : v ∈ countUp lo hi ↔ lo ≤ v ∧ v ≤ hi := by
  unfold countUp
  simp only [List.mem_map, List.mem_range]
  constructor
  · rintro ⟨k, hk, rfl⟩
    omega
  · intro h
    exact ⟨(v - lo).toNat, by omega, by omega⟩

/-- The first pass returns words that the tally pass reads: `data[0]` or a later recorded
sample. -/
theorem firstPass_tallied (cfg : Config) (data : Nat → Int) :
    (∃ i, i < cfg.NUM_READINGS + 1 ∧ data i = (firstPass cfg data).2) ∧
    (∃ i, i < cfg.NUM_READINGS + 1 ∧ data i = (firstPass cfg data).1) := by
  have hsw : firstPass cfg data = Prod.swap ((List.range cfg.NUM_READINGS).foldl
      (fun (acc : Int × Int) i =>
        (if data i < acc.1 then data i else acc.1, if data i > acc.2 then data i else acc.2))
      (data 0, data 0)) := firstPass_swap data _ _ _
  obtain ⟨⟨_, _, h3⟩, _, _, h6⟩ := foldl_min_max data (List.range cfg.NUM_READINGS)
    (data 0) (data 0)
  rw [hsw]
  constructor
  · rcases h3 with h3 | ⟨i, hi, h3⟩
    · exact ⟨0, Nat.succ_pos _, h3.symm⟩
    · exact ⟨i, Nat.lt_succ_of_lt (List.mem_range.mp hi), h3.symm⟩
  · rcases h6 with h6 | ⟨i, hi, h6⟩
    · exact ⟨0, Nat.succ_pos _, h6.symm⟩
    · exact ⟨i, Nat.lt_succ_of_lt (List.mem_range.mp hi), h6.symm⟩

/-- Invariant of the tally loop, for a set `P` of indices that holds every tallied value:
`mode` bounds the entries of `occurances` in `P` and is one of them. -/
theorem tally_mode (P : Int → Prop) (data : Nat → Int) (l : List Nat)
    (hl : ∀ i ∈ l, P (data i)) (occ : Int → Int) (m : Int)
    (hb : ∀ v, P v → occ v ≤ m) (ha : ∃ v, P v ∧ occ v = m) :
    (∀ v, P v → (l.foldl (tallyStep data) (occ, m)).1 v ≤
      (l.foldl (tallyStep data) (occ, m)).2) ∧
    (∃ v, P v ∧ (l.foldl (tallyStep data) (occ, m)).1 v =
      (l.foldl (tallyStep data) (occ, m)).2) := by
  induction l generalizing occ m with
  | nil => exact ⟨hb, ha⟩
  | cons x xs ih =>
    rw [List.foldl_cons]
    have hstep : tallyStep data (occ, m) x =
        (store occ (data x) (occ (data x) + 1),
          if store occ (data x) (occ (data x) + 1) (data x) > m
          then store occ (data x) (occ (data x) + 1) (data x) else m) := rfl
    have hs : store occ (data x) (occ (data x) + 1) (data x) = occ (data x) + 1 := by
      simp [store]
    have hne : ∀ v, v ≠ data x → store occ (data x) (occ (data x) + 1) v = occ v := by
      intro v hv
      simp [store, hv]
    have hPx : P (data x) := hl x (List.mem_cons_self _ _)
    rw [hstep, hs]
    apply ih (fun i hi => hl i (List.mem_cons_of_mem _ hi))
    · intro v hv
      by_cases hvx : v = data x
      · rw [hvx, hs]
        split_ifs <;> omega
      · rw [hne v hvx]
        have := hb v hv
        split_ifs <;> omega
    · by_cases hgt : occ (data x) + 1 > m
      · exact ⟨data x, hPx, by rw [hs, if_pos hgt]⟩
      · obtain ⟨v, hv, hvm⟩ := ha
        have hvx : v ≠ data x := by
          intro e
          rw [e] at hvm
          omega
        exact ⟨v, hv, by rw [hne v hvx, if_neg hgt, hvm]⟩

/-- Every word that the second pass tallies has a positive entry afterwards, when its entry
was not negative before. -/
theorem secondPass_pos (cfg : Config) (data : Nat → Int) (occ : Int → Int) (j : Nat)
    (hj : j < cfg.NUM_READINGS + 1) (h0 : 0 ≤ occ (data j)) :
    1 ≤ (secondPass cfg data occ).1 (data j) := by
  unfold secondPass
  rw [tally_table]
  have hpos : 0 < (List.range (cfg.NUM_READINGS + 1)).countP
      (fun i => decide (data i = data j)) :=
    List.countP_pos_iff.mpr ⟨j, List.mem_range.mpr hj, by simp⟩
  omega

/-- The display log of `plot`. -/
theorem plot_display_eq (cfg : Config) (data : Nat → Int) (occ : Int → Int) :
    (plot cfg data occ).display =
      [Cmd.ST7735_InitR, Cmd.ST7735_FillScreen 0, Cmd.ST7735_SetCursor 0 0,
        Cmd.ST7735_OutString "Lab 2 - ADC PMF",
        Cmd.ST7735_PlotClear 0 (plot cfg data occ).mode] ++
      (List.replicate (plot cfg data occ).shiftRight.toNat Cmd.ST7735_PlotNext ++
        (countUp (plot cfg data occ).minValue (plot cfg data occ).maxValue).flatMap
          (fun i => [Cmd.ST7735_PlotBar ((plot cfg data occ).occurances i),
            Cmd.ST7735_PlotNext])) := by
  show barLoop _ _ _ (shiftLoop _ _) = _
  rw [barLoop_eq, shiftLoop_eq, List.append_assoc]
  rfl

/-! ## Claims on the passes of `plot` -/

/-- C11: the tally pass of `plot` runs its body for `i = 0, ..., NUM_READINGS`, the last
value included: it reads `data[NUM_READINGS]`, an offset outside `[0, NUM_READINGS)`, on
every input, and it makes `NUM_READINGS + 1` increments, so that over any range of indices
holding all the tallied values the entries of `occurances` grow by `NUM_READINGS + 1` in
total. -/
theorem tally_pass_reads_past_end (cfg : Config) (data : Nat → Int) (occ : Int → Int) :
    (secondPassTraced cfg data occ).1 = secondPass cfg data occ ∧
    (secondPassTraced cfg data occ).2.map Prod.fst = List.range (cfg.NUM_READINGS + 1) ∧
    (cfg.NUM_READINGS, data cfg.NUM_READINGS) ∈ (secondPassTraced cfg data occ).2 ∧
    cfg.NUM_READINGS ∉ List.range cfg.NUM_READINGS ∧
    (secondPassTraced cfg data occ).2.length = cfg.NUM_READINGS + 1 ∧
    (∀ lo hi : Int, (∀ i, i < cfg.NUM_READINGS + 1 → lo ≤ data i ∧ data i ≤ hi) →
      tableSum (secondPass cfg data occ).1 lo hi =
        tableSum occ lo hi + (cfg.NUM_READINGS + 1)) := by
  rw [secondPassTraced_eq]
  refine ⟨rfl, ?_, ?_, ?_, ?_, ?_⟩
  · simp only [List.map_map]
    exact List.map_id _
  · exact List.mem_map.mpr ⟨cfg.NUM_READINGS, List.mem_range.mpr (Nat.lt_succ_self _), rfl⟩
  · simp
  · simp
  · intro lo hi hall
    unfold secondPass
    rw [tableSum_tally, List.countP_eq_length.mpr, List.length_range]
    · push_cast
      rfl
    · intro i hi
      simpa using hall i (List.mem_range.mp hi)

theorem tally_pass_reads_past_end_witness :
    (∀ i, i < 6 + 1 → (1 : Int) ≤ ofList [1, 1, 2, 3, 3, 3] 3 i ∧
      ofList [1, 1, 2, 3, 3, 3] 3 i ≤ 3) ∧
    tableSum (secondPass ⟨6, 4096⟩ (ofList [1, 1, 2, 3, 3, 3] 3) zeroTable).1 1 3 =
      tableSum zeroTable 1 3 + (6 + 1) :=
  ⟨by decide,
    (tally_pass_reads_past_end ⟨6, 4096⟩ (ofList [1, 1, 2, 3, 3, 3] 3) zeroTable).2.2.2.2.2
      1 3 (by decide)⟩

/-- C12: after the first pass of `plot` on a full buffer, `minValue` is the minimum and
`maxValue` the maximum of `data[0 .. NUM_READINGS)`: every recorded value lies between
them, both occur in the buffer, and `plotWidth = maxValue - minValue >= 0`. -/
theorem first_pass_min_max (cfg : Config) (data : Nat → Int) (occ : Int → Int)
    (hN : 0 < cfg.NUM_READINGS) :
    (∀ i, i < cfg.NUM_READINGS →
      (plot cfg data occ).minValue ≤ data i ∧ data i ≤ (plot cfg data occ).maxValue) ∧
    (∃ i, i < cfg.NUM_READINGS ∧ data i = (plot cfg data occ).minValue) ∧
    (∃ i, i < cfg.NUM_READINGS ∧ data i = (plot cfg data occ).maxValue) ∧
    (plot cfg data occ).plotWidth =
      (plot cfg data occ).maxValue - (plot cfg data occ).minValue ∧
    0 ≤ (plot cfg data occ).plotWidth := by
  have hmin : (plot cfg data occ).minValue = (firstPass cfg data).2 := rfl
  have hmax : (plot cfg data occ).maxValue = (firstPass cfg data).1 := rfl
  have hw : (plot cfg data occ).plotWidth =
      (plot cfg data occ).maxValue - (plot cfg data occ).minValue := rfl
  obtain ⟨hlo, hhi⟩ := firstPass_attained cfg data hN
  have hle := firstPass_le cfg data
  refine ⟨?_, ?_, ?_, hw, ?_⟩
  · intro i hi
    rw [hmin, hmax]
    exact firstPass_bounds cfg data i hi
  · rw [hmin]
    exact hlo
  · rw [hmax]
    exact hhi
  · rw [hw, hmin, hmax]
    omega

theorem first_pass_min_max_witness :
    0 < (Config.mk 6 4096).NUM_READINGS ∧
    (plot ⟨6, 4096⟩ (ofList [2, 1, 3, 1, 3, 3] 9) zeroTable).minValue = 1 ∧
    (plot ⟨6, 4096⟩ (ofList [2, 1, 3, 1, 3, 3] 9) zeroTable).maxValue = 3 ∧
    0 ≤ (plot ⟨6, 4096⟩ (ofList [2, 1, 3, 1, 3, 3] 9) zeroTable).plotWidth :=
  ⟨by decide, by decide, by decide,
    (first_pass_min_max ⟨6, 4096⟩ (ofList [2, 1, 3, 1, 3, 3] 9) zeroTable
      (by decide)).2.2.2.2⟩

/-- C13: with the table `occurances` all zero at the start and every tallied value in
`[0, ADC_RANGE)`, the value `mode` at the end of the tally pass of `plot` is the largest
entry of the table, and it is the y-axis maximum passed to `ST7735_PlotClear`. -/
theorem mode_is_largest_entry (cfg : Config) (data : Nat → Int) (occ : Int → Int)
    (hz : ∀ v : Int, 0 ≤ v → v < cfg.ADC_RANGE → occ v = 0)
    (hr : ∀ i, i < cfg.NUM_READINGS + 1 → 0 ≤ data i ∧ data i < cfg.ADC_RANGE) :
    (plot cfg data occ).mode = (secondPass cfg data occ).2 ∧
    (plot cfg data occ).occurances = (secondPass cfg data occ).1 ∧
    (∀ v : Int, 0 ≤ v → v < cfg.ADC_RANGE →
      (secondPass cfg data occ).1 v ≤ (secondPass cfg data occ).2) ∧
    (∃ v : Int, 0 ≤ v ∧ v < cfg.ADC_RANGE ∧
      (secondPass cfg data occ).1 v = (secondPass cfg data occ).2) ∧
    Cmd.ST7735_PlotClear 0 (secondPass cfg data occ).2 ∈ (plot cfg data occ).display ∧
    (∀ a b : Int, Cmd.ST7735_PlotClear a b ∈ (plot cfg data occ).display →
      b = (secondPass cfg data occ).2) := by
  have hmode : (plot cfg data occ).mode = (secondPass cfg data occ).2 := rfl
  obtain ⟨hb, v, hv, hvm⟩ := tally_mode (fun v => 0 ≤ v ∧ v < (cfg.ADC_RANGE : Int)) data
    (List.range (cfg.NUM_READINGS + 1)) (fun i hi => hr i (List.mem_range.mp hi)) occ 0
    (fun v hv => le_of_eq (hz v hv.1 hv.2))
    ⟨data 0, hr 0 (Nat.succ_pos _), hz _ (hr 0 (Nat.succ_pos _)).1 (hr 0 (Nat.succ_pos _)).2⟩
  refine ⟨hmode, rfl, fun v h0 h1 => hb v ⟨h0, h1⟩, ⟨v, hv.1, hv.2, hvm⟩, ?_, ?_⟩
  · rw [plot_display_eq, hmode]
    simp
  · intro a b hab
    rw [plot_display_eq, hmode] at hab
    simp only [List.mem_append, List.mem_cons, List.mem_replicate, List.mem_flatMap,
      List.mem_singleton, List.not_mem_nil, or_false, reduceCtorEq, false_or, Cmd.ST7735_PlotClear.injEq, and_false, exists_false,
      exists_const] at hab
    exact hab.2

theorem mode_is_largest_entry_witness :
    (∀ v : Int, 0 ≤ v → v < (Config.mk 6 4096).ADC_RANGE → zeroTable v = 0) ∧
    (∀ i, i < 6 + 1 → (0 : Int) ≤ ofList [1, 1, 2, 3, 3, 3] 9 i ∧
      ofList [1, 1, 2, 3, 3, 3] 9 i < (Config.mk 6 4096).ADC_RANGE) ∧
    (plot ⟨6, 4096⟩ (ofList [1, 1, 2, 3, 3, 3] 9) zeroTable).mode = 3 ∧
    Cmd.ST7735_PlotClear 0 (secondPass ⟨6, 4096⟩ (ofList [1, 1, 2, 3, 3, 3] 9) zeroTable).2 ∈
      (plot ⟨6, 4096⟩ (ofList [1, 1, 2, 3, 3, 3] 9) zeroTable).display :=
  ⟨fun _ _ _ => rfl, by decide, by decide,
    (mode_is_largest_entry ⟨6, 4096⟩ (ofList [1, 1, 2, 3, 3, 3] 9) zeroTable
      (fun _ _ _ => rfl) (by decide)).2.2.2.2.1⟩

/-! ## Further claims on the jitter analysis -/

/-- Negating every value seen swaps the running minimum and maximum and negates them. -/
theorem foldl_min_max_neg {ι : Type} (f g : ι → Int) (l : List ι) (a b : Int)
    (h : ∀ i ∈ l, g i = -f i) :
    l.foldl (fun (acc : Int × Int) i =>
      (if g i < acc.1 then g i else acc.1, if g i > acc.2 then g i else acc.2)) (-b, -a) =
    (-(l.foldl (fun (acc : Int × Int) i =>
        (if f i < acc.1 then f i else acc.1, if f i > acc.2 then f i else acc.2)) (a, b)).2,
     -(l.foldl (fun (acc : Int × Int) i =>
        (if f i < acc.1 then f i else acc.1, if f i > acc.2 then f i else acc.2)) (a, b)).1) := by
  induction l generalizing a b with
  | nil => rfl
  | cons x xs ih =>
    simp only [List.foldl_cons]
    have hx := h x (List.mem_cons_self _ _)
    have h1 : (if g x < -b then g x else -b) = -(if f x > b then f x else b) := by
      rw [hx]
      split_ifs <;> omega
    have h2 : (if g x > -a then g x else -a) = -(if f x < a then f x else a) := by
      rw [hx]
      split_ifs <;> omega
    rw [h1, h2]
    exact ih _ _ (fun i hi => h i (List.mem_cons_of_mem _ hi))

/-- C14: for a timestamp buffer of length `N >= 2`, in exact integer arithmetic,
`findJitter` returns a value `>= 0`, and it returns `0` if and only if all the consecutive
differences `times[i] - times[i-1]`, `i` in `[1, N)`, are equal. -/
theorem findJitter_nonneg_zero_iff (cfg : Config) (times : Nat → Int)
    (hN : 2 ≤ cfg.NUM_READINGS) :
    0 ≤ findJitter cfg times ∧
    (findJitter cfg times = 0 ↔
      ∀ i j, 1 ≤ i → i < cfg.NUM_READINGS → 1 ≤ j → j < cfg.NUM_READINGS →
        times i - times (i - 1) = times j - times (j - 1)) := by
  obtain ⟨lo, hi, hj, hlo, ⟨i0, hi1, hiN, hloi⟩, hhi, ⟨j0, hj1, hjN, hhij⟩⟩ :=
    findJitter_bounds cfg times hN
  have h1 := hlo 1 (le_refl 1) hN
  have h2 := hhi 1 (le_refl 1) hN
  refine ⟨by omega, ?_, ?_⟩
  · intro hzero i j hi1 hiN hj1 hjN
    have a1 := hlo i hi1 hiN
    have a2 := hhi i hi1 hiN
    have b1 := hlo j hj1 hjN
    have b2 := hhi j hj1 hjN
    omega
  · intro hall
    have := hall i0 j0 hi1 hiN hj1 hjN
    omega

theorem findJitter_nonneg_zero_iff_witness :
    2 ≤ (Config.mk 4 4096).NUM_READINGS ∧
    0 ≤ findJitter ⟨4, 4096⟩ (ofList [5, 15, 25, 35] 0) ∧
    findJitter ⟨4, 4096⟩ (ofList [5, 15, 25, 35] 0) = 0 ∧
    findJitter ⟨4, 4096⟩ (ofList [0, 10, 25, 30] 0) ≠ 0 :=
  ⟨by decide,
    (findJitter_nonneg_zero_iff ⟨4, 4096⟩ (ofList [5, 15, 25, 35] 0) (by decide)).1,
    by decide, by decide⟩

/-- C15: replacing every timestamp `t` by `C - t`, for an integer constant `C`, does not
change the value of `findJitter` (exact integer arithmetic): the result does not depend on
the counting direction of the clock. -/
theorem findJitter_reflect (cfg : Config) (times : Nat → Int) (C : Int) :
    findJitter cfg (fun i => C - times i) = findJitter cfg times := by
  rw [findJitter_eq, findJitter_eq]
  have h0 : C - times 1 - (C - times 0) = -(times 1 - times 0) := by omega
  rw [h0]
  rw [foldl_min_max_neg (fun i => times i - times (i - 1))
    (fun i => C - times i - (C - times (i - 1))) _ _ _ (fun i _ => by simp only; omega)]
  simp only
  omega

/-! ## Further claims on the histogram plot -/

/-- C16: with the table `occurances` all zero at the start and every value tallied by the
second pass in `[0, ADC_RANGE)`, the value `maxOccurences` of the third pass of `plot`
equals `mode` of the second pass, and `minOccurences <= maxOccurences`. -/
theorem maxOccurences_eq_mode (cfg : Config) (data : Nat → Int) (occ : Int → Int)
    (hz : ∀ v : Int, 0 ≤ v → v < cfg.ADC_RANGE → occ v = 0)
    (hr : ∀ i, i < cfg.NUM_READINGS + 1 → 0 ≤ data i ∧ data i < cfg.ADC_RANGE) :
    (plot cfg data occ).maxOccurences = (plot cfg data occ).mode ∧
    (plot cfg data occ).minOccurences ≤ (plot cfg data occ).maxOccurences := by
  have hmode : (plot cfg data occ).mode = (secondPass cfg data occ).2 := rfl
  have hmax : (plot cfg data occ).maxOccurences =
      (thirdPass (secondPass cfg data occ).1 (firstPass cfg data).2
        (firstPass cfg data).1).2 := rfl
  have hmin : (plot cfg data occ).minOccurences =
      (thirdPass (secondPass cfg data occ).1 (firstPass cfg data).2
        (firstPass cfg data).1).1 := rfl
  obtain ⟨⟨t1, _, _⟩, t4, t5, t6⟩ := foldl_min_max (secondPass cfg data occ).1
    (countUp (firstPass cfg data).2 (firstPass cfg data).1)
    ((secondPass cfg data occ).1 (firstPass cfg data).2)
    ((secondPass cfg data occ).1 (firstPass cfg data).2)
  have t1' : (thirdPass (secondPass cfg data occ).1 (firstPass cfg data).2
      (firstPass cfg data).1).1 ≤ (secondPass cfg data occ).1 (firstPass cfg data).2 := t1
  have t4' : (secondPass cfg data occ).1 (firstPass cfg data).2 ≤
      (thirdPass (secondPass cfg data occ).1 (firstPass cfg data).2
        (firstPass cfg data).1).2 := t4
  have t5' : ∀ v ∈ countUp (firstPass cfg data).2 (firstPass cfg data).1,
      (secondPass cfg data occ).1 v ≤ (thirdPass (secondPass cfg data occ).1
        (firstPass cfg data).2 (firstPass cfg data).1).2 := t5
  have t6' : (thirdPass (secondPass cfg data occ).1 (firstPass cfg data).2
        (firstPass cfg data).1).2 = (secondPass cfg data occ).1 (firstPass cfg data).2 ∨
      ∃ v ∈ countUp (firstPass cfg data).2 (firstPass cfg data).1,
        (thirdPass (secondPass cfg data occ).1 (firstPass cfg data).2
          (firstPass cfg data).1).2 = (secondPass cfg data occ).1 v := t6
  obtain ⟨hb, w, hw, hwm⟩ := tally_mode (fun v => 0 ≤ v ∧ v < (cfg.ADC_RANGE : Int)) data
    (List.range (cfg.NUM_READINGS + 1)) (fun i hi => hr i (List.mem_range.mp hi)) occ 0
    (fun v hv => le_of_eq (hz v hv.1 hv.2))
    ⟨data 0, hr 0 (Nat.succ_pos _), hz _ (hr 0 (Nat.succ_pos _)).1 (hr 0 (Nat.succ_pos _)).2⟩
  have hb' : ∀ v : Int, 0 ≤ v → v < cfg.ADC_RANGE →
      (secondPass cfg data occ).1 v ≤ (secondPass cfg data occ).2 :=
    fun v h0 h1 => hb v ⟨h0, h1⟩
  have hwm' : (secondPass cfg data occ).1 w = (secondPass cfg data occ).2 := hwm
  obtain ⟨⟨jlo, hjlo, hdlo⟩, ⟨jhi, hjhi, hdhi⟩⟩ := firstPass_tallied cfg data
  have hle := firstPass_le cfg data
  have hlo_rng := hr jlo hjlo
  have hhi_rng := hr jhi hjhi
  rw [hdlo] at hlo_rng
  rw [hdhi] at hhi_rng
  -- the entry of `minValue` is positive
  have hposmin : 1 ≤ (secondPass cfg data occ).1 (firstPass cfg data).2 := by
    have := secondPass_pos cfg data occ jlo hjlo
      (le_of_eq (hz _ (hr jlo hjlo).1 (hr jlo hjlo).2).symm)
    rw [hdlo] at this
    exact this
  refine ⟨?_, ?_⟩
  · rw [hmax, hmode]
    apply le_antisymm
    · rcases t6' with h | ⟨v, hv, h⟩
      · rw [h]
        exact hb' _ hlo_rng.1 hlo_rng.2
      · rw [h]
        obtain ⟨hv1, hv2⟩ := (mem_countUp _ _ _).mp hv
        exact hb' v (by omega) (by omega)
    · rw [← hwm']
      by_cases hin : (firstPass cfg data).2 ≤ w ∧ w ≤ (firstPass cfg data).1
      · exact t5' w ((mem_countUp _ _ _).mpr hin)
      · have hcnt : recordedCount cfg data w = 0 := by
          unfold recordedCount
          rw [List.countP_eq_zero]
          intro i hi
          have hbd := firstPass_bounds cfg data i (List.mem_range.mp hi)
          have hne : data i ≠ w := by
            intro e
            rw [e] at hbd
            exact hin hbd
          simpa using hne
        have hw1 : (secondPass cfg data occ).1 w ≤ 1 := by
          rw [secondPass_table, hcnt, hz w hw.1 hw.2]
          split_ifs <;> simp
        omega
  · rw [hmin, hmax]
    omega

theorem maxOccurences_eq_mode_witness :
    (∀ v : Int, 0 ≤ v → v < (Config.mk 6 4096).ADC_RANGE → zeroTable v = 0) ∧
    (∀ i, i < 6 + 1 → (0 : Int) ≤ ofList [1, 1, 2, 3, 3, 3] 9 i ∧
      ofList [1, 1, 2, 3, 3, 3] 9 i < (Config.mk 6 4096).ADC_RANGE) ∧
    (plot ⟨6, 4096⟩ (ofList [1, 1, 2, 3, 3, 3] 9) zeroTable).maxOccurences = 3 ∧
    ((plot ⟨6, 4096⟩ (ofList [1, 1, 2, 3, 3, 3] 9) zeroTable).maxOccurences =
        (plot ⟨6, 4096⟩ (ofList [1, 1, 2, 3, 3, 3] 9) zeroTable).mode ∧
      (plot ⟨6, 4096⟩ (ofList [1, 1, 2, 3, 3, 3] 9) zeroTable).minOccurences ≤
        (plot ⟨6, 4096⟩ (ofList [1, 1, 2, 3, 3, 3] 9) zeroTable).maxOccurences) :=
  ⟨fun _ _ _ => rfl, by decide, by decide,
    maxOccurences_eq_mode ⟨6, 4096⟩ (ofList [1, 1, 2, 3, 3, 3] 9) zeroTable
      (fun _ _ _ => rfl) (by decide)⟩

theorem index_log_fold (l init : List Int) :
    l.foldl (fun log i => log ++ [i]) init = init ++ l := by
  induction l generalizing init with
  | nil => simp
  | cons x xs ih =>
    rw [List.foldl_cons, ih]
    simp

/-- C17: when every recorded value `data[i]`, `i` in `[0, NUM_READINGS)`, lies in
`[0, ADC_RANGE)`, every index with which the tally pass of `plot` accesses `occurances` for
a recorded sample, and every index `i` in `[minValue, maxValue]` used by the third pass and
by the bar-drawing loop, lies in `[0, ADC_RANGE)`. -/
theorem table_indices_in_range (cfg : Config) (data : Nat → Int) (occ : Int → Int)
    (hN : 0 < cfg.NUM_READINGS)
    (hrec : ∀ i, i < cfg.NUM_READINGS → 0 ≤ data i ∧ data i < cfg.ADC_RANGE) :
    (∀ e ∈ (secondPassTraced cfg data occ).2, e.1 < cfg.NUM_READINGS →
      0 ≤ e.2 ∧ e.2 < cfg.ADC_RANGE) ∧
    (∀ v : Int, (plot cfg data occ).minValue ≤ v → v ≤ (plot cfg data occ).maxValue →
      0 ≤ v ∧ v < cfg.ADC_RANGE) ∧
    (∀ v ∈ thirdPassIndices (plot cfg data occ).minValue (plot cfg data occ).maxValue,
      0 ≤ v ∧ v < cfg.ADC_RANGE) ∧
    (∀ v ∈ barLoopIndices (plot cfg data occ).minValue (plot cfg data occ).maxValue,
      0 ≤ v ∧ v < cfg.ADC_RANGE) := by
  have hmin : (plot cfg data occ).minValue = (firstPass cfg data).2 := rfl
  have hmax : (plot cfg data occ).maxValue = (firstPass cfg data).1 := rfl
  obtain ⟨⟨jlo, hjlo, hdlo⟩, ⟨jhi, hjhi, hdhi⟩⟩ := firstPass_attained cfg data hN
  have hlo_rng := hrec jlo hjlo
  have hhi_rng := hrec jhi hjhi
  have hle := firstPass_le cfg data
  rw [hdlo] at hlo_rng
  rw [hdhi] at hhi_rng
  have hbetween : ∀ v : Int, (firstPass cfg data).2 ≤ v → v ≤ (firstPass cfg data).1 →
      0 ≤ v ∧ v < cfg.ADC_RANGE := by
    intro v h1 h2
    omega
  rw [hmin, hmax]
  refine ⟨?_, hbetween, ?_, ?_⟩
  · intro e he hlt
    rw [secondPassTraced_eq] at he
    obtain ⟨i, _, hie⟩ := List.mem_map.mp he
    rw [← hie] at hlt ⊢
    exact hrec i hlt
  · intro v hv
    unfold thirdPassIndices at hv
    rw [index_log_fold] at hv
    simp only [List.mem_append, List.mem_cons, List.not_mem_nil, or_false, or_self] at hv
    rcases hv with hv | hv
    · rw [hv]
      exact hbetween _ (le_refl _) hle
    · obtain ⟨h1, h2⟩ := (mem_countUp _ _ _).mp hv
      exact hbetween v h1 h2
  · intro v hv
    unfold barLoopIndices at hv
    rw [index_log_fold, List.nil_append] at hv
    obtain ⟨h1, h2⟩ := (mem_countUp _ _ _).mp hv
    exact hbetween v h1 h2

theorem table_indices_in_range_witness :
    0 < (Config.mk 6 4096).NUM_READINGS ∧
    (∀ i, i < 6 → (0 : Int) ≤ ofList [1, 1, 2, 3, 3, 3] 5000 i ∧
      ofList [1, 1, 2, 3, 3, 3] 5000 i < (Config.mk 6 4096).ADC_RANGE) ∧
    thirdPassIndices (plot ⟨6, 4096⟩ (ofList [1, 1, 2, 3, 3, 3] 5000) zeroTable).minValue
      (plot ⟨6, 4096⟩ (ofList [1, 1, 2, 3, 3, 3] 5000) zeroTable).maxValue = [1, 1, 1, 2, 3] ∧
    (∀ v ∈ barLoopIndices (plot ⟨6, 4096⟩ (ofList [1, 1, 2, 3, 3, 3] 5000) zeroTable).minValue
        (plot ⟨6, 4096⟩ (ofList [1, 1, 2, 3, 3, 3] 5000) zeroTable).maxValue,
      0 ≤ v ∧ v < (Config.mk 6 4096).ADC_RANGE) :=
  ⟨by decide, by decide, by decide,
    (table_indices_in_range ⟨6, 4096⟩ (ofList [1, 1, 2, 3, 3, 3] 5000) zeroTable
      (by decide) (by decide)).2.2.2⟩

/-- C18: for `0 <= plotWidth <= 127` the offset `shiftRight` computed by `plot` satisfies
`0 <= shiftRight` and `shiftRight + plotWidth + 1 <= 128`, so the blank columns and the
`plotWidth + 1` bars fit in the 128 columns of the display, and the left margin
`shiftRight` and the right margin `127 - plotWidth - shiftRight` differ by at most `1`. -/
theorem shiftRight_fits (plotWidth : Int) (h0 : 0 ≤ plotWidth) (h1 : plotWidth ≤ 127) :
    0 ≤ shiftRight plotWidth ∧
    shiftRight plotWidth + plotWidth + 1 ≤ 128 ∧
    shiftRight plotWidth - (127 - plotWidth - shiftRight plotWidth) ≤ 1 ∧
    (127 - plotWidth - shiftRight plotWidth) - shiftRight plotWidth ≤ 1 := by
  have hn : ¬ plotWidth > 127 := by omega
  have hs : shiftRight plotWidth = (127 - plotWidth) / 2 := by
    unfold shiftRight
    simp only [hn, if_false]
    exact Int.tdiv_eq_ediv (by omega) (by decide)
  rw [hs]
  omega

theorem shiftRight_fits_witness :
    (0 : Int) ≤ 2 ∧ (2 : Int) ≤ 127 ∧ shiftRight 2 = 62 ∧
    (0 ≤ shiftRight 2 ∧ shiftRight 2 + 2 + 1 ≤ 128 ∧
      shiftRight 2 - (127 - 2 - shiftRight 2) ≤ 1 ∧
      (127 - 2 - shiftRight 2) - shiftRight 2 ≤ 1) :=
  ⟨by decide, by decide, by decide, shiftRight_fits 2 (by decide) (by decide)⟩

/-! ## The display sequence of `plot` -/

/-- C9: for a full sample buffer, every word tallied by the second pass being an index of
the table `occurances` (the samples and the word read as `data[NUM_READINGS]` lie in
`[0, ADC_RANGE)`), every access of `plot` to `occurances` is inside the table, and after
`ST7735_PlotClear` the calls that `plot` sends to the display are `shiftRight` calls of
`ST7735_PlotNext` with no bar, then, for `i` from `minValue` up to `maxValue`,
`ST7735_PlotBar(occurances[i])` followed by `ST7735_PlotNext`; the bars drawn are
`occurances[minValue], ..., occurances[maxValue]` and there are `plotWidth + 1` of them. -/
theorem plot_display_sequence (cfg : Config) (data : Nat → Int) (occ : Int → Int)
    (hr : ∀ i, i < cfg.NUM_READINGS + 1 → 0 ≤ data i ∧ data i < cfg.ADC_RANGE) :
    ((∀ e ∈ (secondPassTraced cfg data occ).2, 0 ≤ e.2 ∧ e.2 < cfg.ADC_RANGE) ∧
      (∀ v ∈ thirdPassIndices (plot cfg data occ).minValue (plot cfg data occ).maxValue,
        0 ≤ v ∧ v < cfg.ADC_RANGE) ∧
      (∀ v ∈ barLoopIndices (plot cfg data occ).minValue (plot cfg data occ).maxValue,
        0 ≤ v ∧ v < cfg.ADC_RANGE)) ∧
    (plot cfg data occ).display =
      [Cmd.ST7735_InitR, Cmd.ST7735_FillScreen 0, Cmd.ST7735_SetCursor 0 0,
        Cmd.ST7735_OutString "Lab 2 - ADC PMF",
        Cmd.ST7735_PlotClear 0 (plot cfg data occ).mode] ++
      (List.replicate (plot cfg data occ).shiftRight.toNat Cmd.ST7735_PlotNext ++
        (countUp (plot cfg data occ).minValue (plot cfg data occ).maxValue).flatMap
          (fun i => [Cmd.ST7735_PlotBar ((plot cfg data occ).occurances i),
            Cmd.ST7735_PlotNext])) ∧
    (((plot cfg data occ).shiftRight.toNat : Nat) : Int) = (plot cfg data occ).shiftRight ∧
    barHeights (plot cfg data occ).display =
      (countUp (plot cfg data occ).minValue (plot cfg data occ).maxValue).map
        (plot cfg data occ).occurances ∧
    ((barHeights (plot cfg data occ).display).length : Int) =
      (plot cfg data occ).plotWidth + 1 := by
  have hmin : (plot cfg data occ).minValue = (firstPass cfg data).2 := rfl
  have hmax : (plot cfg data occ).maxValue = (firstPass cfg data).1 := rfl
  have hle : (firstPass cfg data).2 ≤ (firstPass cfg data).1 := firstPass_le cfg data
  obtain ⟨⟨jlo, hjlo, hdlo⟩, ⟨jhi, hjhi, hdhi⟩⟩ := firstPass_tallied cfg data
  have hlo_rng := hr jlo hjlo
  have hhi_rng := hr jhi hjhi
  rw [hdlo] at hlo_rng
  rw [hdhi] at hhi_rng
  have hbetween : ∀ v : Int, (firstPass cfg data).2 ≤ v → v ≤ (firstPass cfg data).1 →
      0 ≤ v ∧ v < cfg.ADC_RANGE := by
    intro v h1 h2
    omega
  have hd := plot_display_eq cfg data occ
  have hh : barHeights (plot cfg data occ).display =
      (countUp (plot cfg data occ).minValue (plot cfg data occ).maxValue).map
        (plot cfg data occ).occurances := by
    rw [hd]
    unfold barHeights
    rw [List.filterMap_append, List.filterMap_append]
    have h1 := barHeights_replicate (plot cfg data occ).shiftRight.toNat
    have h2 := barHeights_bars (plot cfg data occ).occurances
      (countUp (plot cfg data occ).minValue (plot cfg data occ).maxValue)
    unfold barHeights at h1 h2
    rw [h1, h2]
    rfl
  refine ⟨⟨?_, ?_, ?_⟩, hd, ?_, hh, ?_⟩
  · intro e he
    rw [secondPassTraced_eq] at he
    obtain ⟨i, hi, hie⟩ := List.mem_map.mp he
    rw [← hie]
    exact hr i (List.mem_range.mp hi)
  · intro v hv
    rw [hmin, hmax] at hv
    unfold thirdPassIndices at hv
    rw [index_log_fold] at hv
    simp only [List.mem_append, List.mem_cons, List.not_mem_nil, or_false, or_self] at hv
    rcases hv with hv | hv
    · rw [hv]
      exact hbetween _ (le_refl _) hle
    · obtain ⟨h1, h2⟩ := (mem_countUp _ _ _).mp hv
      exact hbetween v h1 h2
  · intro v hv
    rw [hmin, hmax] at hv
    unfold barLoopIndices at hv
    rw [index_log_fold, List.nil_append] at hv
    obtain ⟨h1, h2⟩ := (mem_countUp _ _ _).mp hv
    exact hbetween v h1 h2
  · rw [plot_shiftRight]
    exact Int.toNat_of_nonneg (shiftRight_nonneg _)
  · rw [hh, List.length_map, countUp_length]
    have hw : (plot cfg data occ).plotWidth =
        (plot cfg data occ).maxValue - (plot cfg data occ).minValue := rfl
    rw [hw, hmin, hmax]
    omega

theorem plot_display_sequence_witness :
    (∀ i, i < 6 + 1 → (0 : Int) ≤ ofList [1, 1, 2, 3, 3, 3] 3 i ∧
      ofList [1, 1, 2, 3, 3, 3] 3 i < (Config.mk 6 4096).ADC_RANGE) ∧
    (plot ⟨6, 4096⟩ (ofList [1, 1, 2, 3, 3, 3] 3) zeroTable).shiftRight = 62 ∧
    barHeights (plot ⟨6, 4096⟩ (ofList [1, 1, 2, 3, 3, 3] 3) zeroTable).display = [2, 1, 4] ∧
    ((barHeights (plot ⟨6, 4096⟩ (ofList [1, 1, 2, 3, 3, 3] 3) zeroTable).display).length :
        Int) = (plot ⟨6, 4096⟩ (ofList [1, 1, 2, 3, 3, 3] 3) zeroTable).plotWidth + 1 :=
  ⟨by decide, by decide, by decide,
    (plot_display_sequence ⟨6, 4096⟩ (ofList [1, 1, 2, 3, 3, 3] 3) zeroTable
      (by decide)).2.2.2.2⟩

end ADCTestMain
